import Mathlib

/-!
Verification of the nimbul pipeline-configuration engine.

This file gives a shallow embedding, in Lean 4, of the Go code of the
`nimbulconfig` and `webhooks` packages of the nimbul repository: the
override/path engine (`parsePath`, `navigateTo`, `setValue`,
`setValueAtPath`, `matchesResource`, `ApplyOverrides`), the manifest
splitter (`ParseManifestBytes`), the template rewrite and renderer
(`transformBuildTagSyntax`, `RenderString`, `RenderConfig`), the
validator (`validateOverride`) and the ref normalizer
(`normalizeRefForTag`).

Strings are modelled as Lean `String`/`List Char`; all the string data
handled by the modelled functions is ASCII, where Go byte indices and
code-point indices coincide.  External collaborators (the YAML decoder
and the text/template engine) are modelled abstractly or restricted to
the fragment the repository uses, as documented at each definition.
-/

namespace Nimbul

/-- First index of an occurrence of `pat` in `s` (as a character index),
models Go `strings.Index` for the ASCII patterns used by the code. -/
def firstIdx (pat : List Char) : List Char → Option Nat
  | [] => if pat.isEmpty then some 0 else none
  | c :: rest =>
    if pat.isPrefixOf (c :: rest) then some 0
    else (firstIdx pat rest).map (· + 1)

/-- Models Go `strings.Contains`. -/
def containsSub (s pat : List Char) : Bool :=
  (firstIdx pat s).isSome

/-- Models Go `strings.HasPrefix` on strings. -/
def goHasPrefixStr (s pre : String) : Bool :=
  pre.data.isPrefixOf s.data

/-- The whitespace set of Go `unicode.IsSpace` (the characters Go
`strings.TrimSpace` removes), restricted to the Latin-1 range. -/
def goIsSpace (c : Char) : Bool :=
  c = ' ' || c = '\t' || c = '\n' || c = '\x0b' || c = '\x0c' || c = '\r' ||
  c = '\x85' || c = '\xa0'

/-- Models Go `strings.TrimSpace` on character lists. -/
def goTrimL (l : List Char) : List Char :=
  ((l.dropWhile goIsSpace).reverse.dropWhile goIsSpace).reverse

/-- Models Go `strings.TrimSpace`. -/
def goTrimSpace (s : String) : String :=
  ⟨goTrimL s.data⟩

/-- Fuelled splitting on a (non-empty) separator; the fuel is always
sufficient at the lengths it is used with. -/
def splitSepL (sep : List Char) : Nat → List Char → List (List Char)
  | 0, s => [s]
  | fuel + 1, s =>
    match firstIdx sep s with
    | none => [s]
    | some i => s.take i :: splitSepL sep fuel (s.drop (i + sep.length))

/-- Models Go `strings.Split` for a non-empty separator. -/
def goSplit (s sep : String) : List String :=
  (splitSepL sep.data (s.data.length + 1) s.data).map List.asString

/-- ASCII lower-casing of a character list. -/
def lowerL (l : List Char) : List Char :=
  l.map Char.toLower

/-- Models Go `strings.EqualFold` restricted to ASCII case folding
(every string the validator compares is ASCII). -/
def eqFold (a b : String) : Bool :=
  lowerL a.data == lowerL b.data

/-- Numeric value of a list of decimal digit characters
(accumulator form). -/
def digitsToNatAux : List Char → Nat → Nat
  | [], acc => acc
  | c :: cs, acc => digitsToNatAux cs (10 * acc + (c.toNat - 48))

/-- Numeric value of a list of decimal digit characters. -/
def digitsToNat (l : List Char) : Nat :=
  digitsToNatAux l 0

/-- The signed value denoted by a digit list. -/
def atoiVal (neg : Bool) (ds : List Char) : Int :=
  if neg then -(digitsToNat ds : Int) else (digitsToNat ds : Int)

/-- The digit part of Go `strconv.Atoi` after the optional sign: one or
more decimal digits, rejecting values outside the 64-bit integer
range. -/
def atoiCore (neg : Bool) (ds : List Char) : Option Int :=
  if ds.isEmpty || !(ds.all Char.isDigit) then none
  else if atoiVal neg ds < -(2 ^ 63) || atoiVal neg ds > 2 ^ 63 - 1 then none
  else some (atoiVal neg ds)

/-- Models Go `strconv.Atoi`: an optional sign followed by one or more
decimal digits, rejecting values outside the 64-bit integer range. -/
def atoiL (l : List Char) : Option Int :=
  match l with
  | [] => none
  | c :: cs =>
    if c = '-' then atoiCore true cs
    else if c = '+' then atoiCore false cs
    else atoiCore false (c :: cs)

/-- Models Go `strconv.Atoi` on strings. -/
def atoi (s : String) : Option Int :=
  atoiL s.data

/-- Decimal digit character of `n % 10`. -/
def digitChar (n : Nat) : Char :=
  Char.ofNat (48 + n % 10)

/-- Fuelled decimal printing of a natural number (most significant digit
first, accumulator form); fuel `n + 1` always suffices. -/
def natReprAux : Nat → Nat → List Char → List Char
  | 0, _, acc => acc
  | fuel + 1, n, acc =>
    if n < 10 then digitChar n :: acc
    else natReprAux fuel (n / 10) (digitChar n :: acc)

/-- Decimal digits of a natural number. -/
def natReprL (n : Nat) : List Char :=
  natReprAux (n + 1) n []

/-- Decimal representation of a natural number, as used by Go
`fmt.Sprintf("%d", _)`. -/
def natRepr (n : Nat) : String :=
  ⟨natReprL n⟩

/-- Decimal digits (with sign) of an integer. -/
def intReprL (i : Int) : List Char :=
  if i < 0 then '-' :: natReprL i.natAbs else natReprL i.toNat

/-- Decimal representation of an integer, as used by Go
`fmt.Sprintf("%d", _)`. -/
def intRepr (i : Int) : String :=
  ⟨intReprL i⟩

/-! ## The configuration data model (`nimbulconfig/config.go`) -/

/-- `MatchConfig` from `config.go`: filter criteria for selecting
resources. -/
structure MatchConfig where
  Kind : String
  Name : String
  deriving DecidableEq, Repr

/-- `OverrideConfig` from `config.go`: how to override a value in a
manifest. -/
structure OverrideConfig where
  Path : String
  Match : MatchConfig
  Value : String
  deriving DecidableEq, Repr

/-- `ManifestConfig` from `config.go`. -/
structure ManifestConfig where
  Path : String
  Overrides : List OverrideConfig
  deriving DecidableEq, Repr

/-- `DeployConfig` from `config.go`. -/
structure DeployConfig where
  Name : String
  BuildID : String
  Manifests : List ManifestConfig
  deriving DecidableEq, Repr

/-- `BuildConfig` from `config.go`. -/
structure BuildConfig where
  Name : String
  Dockerfile : String
  Context : String
  Tags : List String
  deriving DecidableEq, Repr

/-- `NimbulConfig` from `config.go`. -/
structure NimbulConfig where
  Version : String
  Build : List BuildConfig
  Deploy : List DeployConfig
  deriving DecidableEq, Repr

/-! ## The validator (`nimbulconfig/validate.go`) -/

/-- The `validKinds` list of `validateOverride` in `validate.go`,
verbatim. -/
def validKinds : List String :=
  ["Deployment", "Service", "ConfigMap", "Secret", "Ingress",
   "StatefulSet", "DaemonSet", "Job", "CronJob", "PersistentVolumeClaim"]

/-- `validateOverride` from `validate.go` (the unused `index` parameter
of the Go function is dropped).  The Go loop over `validKinds` with a
break is the `List.any` below. -/
def validateOverride (override : OverrideConfig) : Except String Unit := do
  if override.Path = "" then
    throw "path is required"
  if override.Value = "" then
    throw "value is required"
  if override.Match.Kind ≠ "" then
    let kindValid := validKinds.any (fun validKind => eqFold override.Match.Kind validKind)
    if !kindValid then
      throw ("match.kind '" ++ override.Match.Kind ++
        "' is not a recognized Kubernetes resource type")
  return ()

/-- `true` iff an `Except` computation succeeded. -/
def exceptOk {ε α : Type} : Except ε α → Bool
  | .ok _ => true
  | .error _ => false

/-! ## The generic manifest document tree

`ParseManifestBytes` decodes every YAML document into a Go
`map[string]interface{}`; nested values are `interface{}` trees of
maps, `[]interface{}` slices and scalars.  `DocVal` is that tree as an
explicit tagged union (mappings are association lists looked up by
first occurrence; YAML float scalars are not modelled, no claim touches
them). -/

inductive DocVal where
  | null : DocVal
  | bool (b : Bool) : DocVal
  | num (n : Int) : DocVal
  | str (s : String) : DocVal
  | seq (xs : List DocVal) : DocVal
  | map (m : List (String × DocVal)) : DocVal
  deriving Repr

/-- One decoded manifest document (`map[string]interface{}`). -/
abbrev DocMap := List (String × DocVal)

/-- Setting `m[k] = v` on a Go map, modelled on an association list:
replace the binding of `k` if present, otherwise add it. -/
def mapSet (m : DocMap) (k : String) (v : DocVal) : DocMap :=
  match m with
  | [] => [(k, v)]
  | (k', v') :: rest =>
    if k' = k then (k, v) :: rest else (k', v') :: mapSet rest k v

/-! ## The override engine (`nimbulconfig/manifest.go`) -/

/-- The first alternative `\[[\d]+\]` of the `parsePath` regex, tried at
one position: a `[`, one or more ASCII digits (greedy), then `]`.
Returns the matched segment and the remaining input. -/
def bracketSeg : List Char → Option (String × List Char)
  | '[' :: rest =>
    let ds := rest.takeWhile Char.isDigit
    if ds.isEmpty then none
    else
      match rest.dropWhile Char.isDigit with
      | ']' :: rest' => some (⟨'[' :: (ds ++ [']'])⟩, rest')
      | _ => none
  | _ => none

/-- `parsePath` from `manifest.go`:
`regexp.MustCompile("(\[[\d]+\]|[^.]+)").FindAllString(path, -1)` with
Go's leftmost-first matching: at each position the engine first tries
`\[[\d]+\]`, then the greedy `[^.]+`; a `.` matches neither and is
skipped.  The fuel (one unit per consumed character) always suffices at
`length + 1`. -/
def parsePathAux : Nat → List Char → List String
  | 0, _ => []
  | _ + 1, [] => []
  | fuel + 1, c :: rest =>
    if c = '.' then parsePathAux fuel rest
    else
      match bracketSeg (c :: rest) with
      | some (seg, rest') => seg :: parsePathAux fuel rest'
      | none =>
        (⟨(c :: rest).takeWhile (· ≠ '.')⟩ : String) ::
          parsePathAux fuel ((c :: rest).dropWhile (· ≠ '.'))

/-- `parsePath` from `manifest.go`. -/
def parsePath (path : String) : List String :=
  parsePathAux (path.data.length + 1) path.data

/-- Go `strings.HasPrefix(segment, "[") && strings.HasSuffix(segment, "]")`,
the array-segment test of `navigateTo` and `setValue`. -/
def isBracketSegment (segment : String) : Bool :=
  (match segment.data with | '[' :: _ => true | _ => false) &&
  (match segment.data.getLast? with | some ']' => true | _ => false)

/-- `segment[1 : len(segment)-1]` of a bracket segment. -/
def bracketInner (segment : String) : List Char :=
  (segment.data.drop 1).dropLast

/-- The error wrapping of `setValueAtPath` around a failed navigation
step. -/
def navErr (part : String) (pos : Nat) (msg : String) : String :=
  "failed to navigate to path segment '" ++ part ++ "' at position " ++
    natRepr pos ++ ": " ++ msg

/-- The navigation loop of `setValueAtPath` from `manifest.go` combined
with `navigateTo` and `setValue`.  The Go code navigates with
`navigateTo` over all segments but the last, mutating the document in
place (a missing mapping key is synthesised as an empty map and
inserted), and finally calls `setValue`; this pure version makes the
write-back of the mutated child explicit.  On an error the document
returned is the state the Go heap is left in: synthesis performed by
already-completed steps is kept, the failing step changes nothing. -/
def setRec (current : DocVal) (parts : List String) (pos : Nat)
    (lastPart : String) (value : DocVal) : DocVal × Option String :=
  match parts with
  | [] =>
    -- `setValue` from `manifest.go`
    if isBracketSegment lastPart then
      match atoiL (bracketInner lastPart) with
      | none =>
        (current, some ("invalid array index '" ++ (⟨bracketInner lastPart⟩ : String) ++ "'"))
      | some index =>
        match current with
        | .seq xs =>
          if index < 0 || (xs.length : Int) ≤ index then
            (current, some ("array index " ++ intRepr index ++
              " out of range (length: " ++ natRepr xs.length ++ ")"))
          else (.seq (xs.set index.toNat value), none)
        | _ => (current, some ("expected array at segment '" ++ lastPart ++ "'"))
    else
      match current with
      | .map m => (.map (mapSet m lastPart value), none)
      | _ => (current, some ("expected map at segment '" ++ lastPart ++ "'"))
  | part :: rest =>
    -- `navigateTo` from `manifest.go`, with the write-back made explicit
    if isBracketSegment part then
      match atoiL (bracketInner part) with
      | none =>
        (current, some (navErr part pos
          ("invalid array index '" ++ (⟨bracketInner part⟩ : String) ++ "'")))
      | some index =>
        match current with
        | .seq xs =>
          if index < 0 || (xs.length : Int) ≤ index then
            (current, some (navErr part pos ("array index " ++ intRepr index ++
              " out of range (length: " ++ natRepr xs.length ++ ")")))
          else
            let res := setRec (xs.getD index.toNat .null) rest (pos + 1) lastPart value
            (.seq (xs.set index.toNat res.1), res.2)
        | _ => (current, some (navErr part pos ("expected array at segment '" ++ part ++ "'")))
    else
      match current with
      | .map m =>
        match m.lookup part with
        | some child =>
          let res := setRec child rest (pos + 1) lastPart value
          (.map (mapSet m part res.1), res.2)
        | none =>
          -- missing key: an empty map is created and inserted
          let res := setRec (.map []) rest (pos + 1) lastPart value
          (.map (mapSet m part res.1), res.2)
      | _ => (current, some (navErr part pos ("expected map at segment '" ++ part ++ "'")))

/-- `setValueAtPath` from `manifest.go`, as a pure state transformer on
the document: returns the (possibly partially) mutated document and the
error, if any. -/
def setValueAtPath (doc : DocMap) (path : String) (value : DocVal) :
    DocMap × Option String :=
  let parts := parsePath path
  if parts.isEmpty then (doc, some "empty path")
  else
    match setRec (.map doc) parts.dropLast 0 (parts.getLastD "") value with
    | (.map m, err) => (m, err)
    | (_, err) => (doc, err)

/-- `matchesResource` from `manifest.go`. -/
def matchesResource (doc : DocMap) (mc : MatchConfig) : Bool :=
  match doc.lookup "kind" with
  | some (.str kind) =>
    if kind ≠ mc.Kind then false
    else if mc.Name ≠ "" then
      match doc.lookup "metadata" with
      | some (.map metadata) =>
        match metadata.lookup "name" with
        | some (.str name) => name = mc.Name
        | _ => false
      | _ => false
    else true
  | _ => false

/-- The inner loop of `ApplyOverrides` from `manifest.go` over one
document: each override whose match predicate holds is applied in list
order; the first failure aborts with the wrapped error, keeping the
mutations already made. -/
def applyOverridesDoc : DocMap → List OverrideConfig → DocMap × Option String
  | doc, [] => (doc, none)
  | doc, override :: rest =>
    if !matchesResource doc override.Match then applyOverridesDoc doc rest
    else
      match setValueAtPath doc override.Path (.str override.Value) with
      | (doc', none) => applyOverridesDoc doc' rest
      | (doc', some e) =>
        (doc', some ("failed to apply override at path '" ++ override.Path ++ "': " ++ e))

/-- `ApplyOverrides` from `manifest.go`, as a pure state transformer on
the document list: documents are processed in order; on the first error
the documents already mutated stay mutated (no rollback) and the
remaining documents are untouched. -/
def applyOverrides : List DocMap → List OverrideConfig → List DocMap × Option String
  | [], _ => ([], none)
  | doc :: docs, overrides =>
    match applyOverridesDoc doc overrides with
    | (doc', none) =>
      let res := applyOverrides docs overrides
      (doc' :: res.1, res.2)
    | (doc', some e) => (doc' :: docs, some e)

/-! ## The manifest document store (`nimbulconfig/manifest.go`) -/

/-- Models the outcome of `yaml.Unmarshal(data, &parsedDoc)` with
`parsedDoc` a `map[string]interface{}`, as `ParseManifestBytes` calls
it: malformed YAML or a document whose top-level value is a sequence or
a scalar is a decode error (`err`); a YAML null document (for instance
a comments-only document or the literal `null`) leaves the target map
nil (`null`); a mapping document fills it (`map`).  The decoder itself
is the external `gopkg.in/yaml.v3` library, so `parseManifestBytes` is
parameterised over it. -/
inductive UnmarshalMapResult where
  | err (msg : String) : UnmarshalMapResult
  | null : UnmarshalMapResult
  | map (m : DocMap) : UnmarshalMapResult

/-- The loop of `ParseManifestBytes` from `manifest.go`: `i` is the
index of the current segment in the full split list. -/
def pmbLoop (decode : String → UnmarshalMapResult) :
    Nat → List String → Except String (List DocMap)
  | _, [] => .ok []
  | i, doc :: rest =>
    let t := goTrimSpace doc
    if t = "" then pmbLoop decode (i + 1) rest
    else
      match decode t with
      | .err msg => .error ("failed to parse document " ++ natRepr i ++ ": " ++ msg)
      | .null => pmbLoop decode (i + 1) rest
      | .map m => (pmbLoop decode (i + 1) rest).map (m :: ·)

/-- `ParseManifestBytes` from `manifest.go`, parameterised over the
YAML decoder (see `UnmarshalMapResult`): splits the input on `---`,
trims each segment, skips blank segments, decodes each remaining
segment, drops nil (null) documents, and fails on the first decode
error naming the segment's index in the split list. -/
def parseManifestBytes (decode : String → UnmarshalMapResult) (data : String) :
    Except String (List DocMap) :=
  pmbLoop decode 0 (goSplit data "---")

/-- The documents `ParseManifestBytes` keeps: for each segment whose
trimmed text is non-blank and decodes to a mapping, that mapping, in
order.  (A reference expression used to characterise the success case.) -/
def keptDocs (decode : String → UnmarshalMapResult) : List String → List DocMap
  | [] => []
  | s :: rest =>
    let t := goTrimSpace s
    if t = "" then keptDocs decode rest
    else
      match decode t with
      | .map m => m :: keptDocs decode rest
      | _ => keptDocs decode rest

/-- `r` is not a decode error. -/
def UnmarshalMapResult.notErr : UnmarshalMapResult → Prop
  | .err _ => False
  | _ => True

/-! ## The template engine (`nimbulconfig/template.go`) -/

/-- `TemplateContext` from `template.go`. -/
structure TemplateContext where
  COMMIT_SHA : String
  COMMIT_SHORT : String
  BRANCH : String
  REPO : String
  TIMESTAMP : String
  BUILD_TAGS : List String
  deriving DecidableEq, Repr

/-- `NewTemplateContext` from `template.go`.  The Go function sets
`TIMESTAMP` from the wall clock (`time.Now().Unix()`); here the
timestamp string is passed in. -/
def newTemplateContext (commitSHA branch repo timestamp : String) : TemplateContext :=
  let commitShort := if commitSHA.data.length > 12 then (⟨commitSHA.data.take 12⟩ : String) else commitSHA
  { COMMIT_SHA := commitSHA
    COMMIT_SHORT := commitShort
    BRANCH := branch
    REPO := repo
    TIMESTAMP := timestamp
    BUILD_TAGS := [] }

/-- The literal `{{ .BUILD_TAG[` that `transformBuildTagSyntax`
searches for. -/
def buildTagMarker : List Char :=
  "\x7b\x7b .BUILD_TAG[".data

/-- The loop of `transformBuildTagSyntax` from `template.go`, with fuel
(the Go loop terminates because every iteration strictly shortens the
string; `tbtsFuelSufficient` below proves the fuel `length + 1` is
enough to reach a fixed point).  Each iteration finds the first
`{{ .BUILD_TAG[`, the first `]` after it and the first `}}` after that
(breaking, i.e. returning the current string, when one is missing),
parses the text between `[` and `]` with `strconv.Atoi`, and either
replaces the whole span by `{{ tag n }}` or, on an unparsable index,
drops everything up to and including the span (`result =
result[closeEnd:]`) and continues. -/
def tbtsLoop : Nat → List Char → List Char
  | 0, r => r
  | fuel + 1, r =>
    match firstIdx buildTagMarker r with
    | none => r
    | some start =>
      let bracketStart := start + 14
      match firstIdx [']'] (r.drop bracketStart) with
      | none => r
      | some be =>
        let closeStart := bracketStart + be + 1
        match firstIdx ['}', '}'] (r.drop closeStart) with
        | none => r
        | some ce =>
          let closeEnd := closeStart + ce + 2
          let indexStr := (r.drop bracketStart).take be
          match atoiL indexStr with
          | none => tbtsLoop fuel (r.drop closeEnd)
          | some index =>
            tbtsLoop fuel
              (r.take start ++ ("\x7b\x7b tag ".data ++ intReprL index ++ " \x7d\x7d".data) ++
                r.drop closeEnd)

/-- `transformBuildTagSyntax` from `template.go`. -/
def transformBuildTagSyntax (tmpl : String) : String :=
  ⟨tbtsLoop (tmpl.data.length + 1) tmpl.data⟩

/-- Evaluation of one template action (the trimmed text between `{{`
and `}}`).  Models the Go `text/template` engine restricted to the
action forms the repository's templates use: a field access on the
context struct, or a call of the custom `tag` function registered by
`RenderString` (whose body, including its error message, is from
`template.go`). -/
def evalAction (action : List Char) (ctx : TemplateContext) : Except String String :=
  if action = ".COMMIT_SHA".data then .ok ctx.COMMIT_SHA
  else if action = ".COMMIT_SHORT".data then .ok ctx.COMMIT_SHORT
  else if action = ".BRANCH".data then .ok ctx.BRANCH
  else if action = ".REPO".data then .ok ctx.REPO
  else if action = ".TIMESTAMP".data then .ok ctx.TIMESTAMP
  else if "tag ".data.isPrefixOf action then
    match atoiL (action.drop 4) with
    | some index =>
      if index < 0 || (ctx.BUILD_TAGS.length : Int) ≤ index then
        .error ("failed to execute template: BUILD_TAG index " ++ intRepr index ++
          " out of range (available: " ++ natRepr ctx.BUILD_TAGS.length ++ " tags)")
      else .ok (ctx.BUILD_TAGS.getD index.toNat "")
    | none => .error "failed to parse template: bad tag argument"
  else .error ("failed to parse template: unknown action '" ++ (⟨action⟩ : String) ++ "'")

/-- The execution of a parsed template: literal text up to each `{{`,
then the evaluated action up to the matching `}}`.  Models Go
`text/template` `Parse` + `Execute` on the fragment used (no pipelines,
no control structures).  The fuel `length + 1` always suffices. -/
def execTemplate (ctx : TemplateContext) : Nat → List Char → Except String (List Char)
  | 0, s => .ok s
  | fuel + 1, s =>
    match firstIdx ['{', '{'] s with
    | none => .ok s
    | some i =>
      let rest := s.drop (i + 2)
      match firstIdx ['}', '}'] rest with
      | none => .error "failed to parse template: unclosed action"
      | some j => do
        let v ← evalAction (goTrimL (rest.take j)) ctx
        let tail ← execTemplate ctx fuel (rest.drop (j + 2))
        return s.take i ++ v.data ++ tail

/-- `RenderString` from `template.go`: templates without `{{` are
returned unchanged; otherwise the `BUILD_TAG[n]` syntax is rewritten
and the template is compiled and executed (the engine itself modelled
by `execTemplate`). -/
def renderString (tmpl : String) (ctx : TemplateContext) : Except String String :=
  if !containsSub tmpl.data ['{', '{'] then .ok tmpl
  else do
    let t := transformBuildTagSyntax tmpl
    let out ← execTemplate ctx (t.data.length + 1) t.data
    return ⟨out⟩

/-- The tag-rendering loop of `RenderConfig` over one build's tags. -/
def renderTags (ctx : TemplateContext) (i : Nat) :
    Nat → List String → Except String (List String)
  | _, [] => .ok []
  | j, tag :: rest =>
    match renderString tag ctx with
    | .error e =>
      .error ("failed to render build[" ++ natRepr i ++ "].tags[" ++ natRepr j ++ "]: " ++ e)
    | .ok renderedTag => (renderTags ctx i (j + 1) rest).map (renderedTag :: ·)

/-- The build-rendering loop of `RenderConfig`. -/
def renderBuilds (ctx : TemplateContext) :
    Nat → List BuildConfig → Except String (List BuildConfig)
  | _, [] => .ok []
  | i, build :: rest => do
    let tags ← renderTags ctx i 0 build.Tags
    let others ← renderBuilds ctx (i + 1) rest
    return { Name := build.Name, Dockerfile := build.Dockerfile,
             Context := build.Context, Tags := tags } :: others

/-- The override-rendering loop of `RenderConfig` over one manifest. -/
def renderOverrides (ctx : TemplateContext) (i j : Nat) :
    Nat → List OverrideConfig → Except String (List OverrideConfig)
  | _, [] => .ok []
  | k, override :: rest =>
    match renderString override.Value ctx with
    | .error e =>
      .error ("failed to render deploy[" ++ natRepr i ++ "].manifest[" ++ natRepr j ++
        "].override[" ++ natRepr k ++ "].value: " ++ e)
    | .ok renderedValue =>
      (renderOverrides ctx i j (k + 1) rest).map
        ({ Path := override.Path, Match := override.Match, Value := renderedValue } :: ·)

/-- The manifest-rendering loop of `RenderConfig` over one deploy. -/
def renderManifests (ctx : TemplateContext) (i : Nat) :
    Nat → List ManifestConfig → Except String (List ManifestConfig)
  | _, [] => .ok []
  | j, manifest :: rest => do
    let overrides ← renderOverrides ctx i j 0 manifest.Overrides
    let others ← renderManifests ctx i (j + 1) rest
    return { Path := manifest.Path, Overrides := overrides } :: others

/-- The deploy-rendering loop of `RenderConfig`: each deploy's linked
build is looked up among the already-rendered builds (first match, as
the Go loop with `break`), its rendered tags become `BUILD_TAGS` of the
per-deploy context. -/
def renderDeploys (ctx : TemplateContext) (renderedBuilds : List BuildConfig) :
    Nat → List DeployConfig → Except String (List DeployConfig)
  | _, [] => .ok []
  | i, deploy :: rest =>
    match renderedBuilds.find? (fun build => build.Name == deploy.BuildID) with
    | none => .error ("deploy[" ++ natRepr i ++ "]: buildId '" ++ deploy.BuildID ++ "' not found")
    | some linkedBuild => do
      let deployCtx := { ctx with BUILD_TAGS := linkedBuild.Tags }
      let manifests ← renderManifests deployCtx i 0 deploy.Manifests
      let others ← renderDeploys ctx renderedBuilds (i + 1) rest
      return { Name := deploy.Name, BuildID := deploy.BuildID, Manifests := manifests } :: others

/-- `RenderConfig` from `template.go` (specialised to a non-nil input,
which every caller passes). -/
def renderConfig (config : NimbulConfig) (ctx : TemplateContext) :
    Except String NimbulConfig := do
  let builds ← renderBuilds ctx 0 config.Build
  let deploys ← renderDeploys ctx builds 0 config.Deploy
  return { Version := config.Version, Build := builds, Deploy := deploys }

/-! ## Ref/tag normalization (`webhooks/service.go`) -/

/-- `isHexString` from `webhooks/service.go`. -/
def isHexString (l : List Char) : Bool :=
  l.all (fun c =>
    ('0' ≤ c && c ≤ '9') || ('a' ≤ c && c ≤ 'f') || ('A' ≤ c && c ≤ 'F'))

/-- `normalizeRefForTag` from `webhooks/service.go`. -/
def normalizeRefForTag (ref commitSHA : String) : String :=
  if ref = "" then
    if commitSHA.data.length > 12 then ⟨commitSHA.data.take 12⟩ else commitSHA
  else if goHasPrefixStr ref "refs/heads/" then ⟨ref.data.drop 11⟩
  else if goHasPrefixStr ref "refs/tags/" then ⟨ref.data.drop 10⟩
  else if ref.data.length == 40 && isHexString ref.data then ⟨ref.data.take 12⟩
  else ref

/-! ## Supporting lemmas -/

/-- If `pat` does not occur in `s`, `firstIdx` finds nothing. -/
theorem firstIdx_eq_none_of_not_contains {s pat : List Char}
    (h : containsSub s pat = false) : firstIdx pat s = none := by
  unfold containsSub at h
  exact Option.not_isSome_iff_eq_none.mp (by simp [h])

/-- A found occurrence fits inside the string. -/
theorem firstIdx_add_length_le {pat s : List Char} {i : Nat}
    (h : firstIdx pat s = some i) : i + pat.length ≤ s.length := by
  induction s generalizing i with
  | nil =>
    unfold firstIdx at h
    by_cases hp : pat.isEmpty <;> simp [hp] at h
    subst h
    simp [List.isEmpty_iff.mp hp]
  | cons c rest ih =>
    unfold firstIdx at h
    by_cases hp : pat.isPrefixOf (c :: rest)
    · simp [hp] at h
      subst h
      have := List.IsPrefix.length_le (List.isPrefixOf_iff_prefix.mp hp)
      simpa using this
    · simp [hp] at h
      obtain ⟨j, hj, rfl⟩ := h
      have := ih hj
      simp [List.length_cons]
      omega

/-- A decimal digit character takes a value below 10 after the ASCII
offset. -/
theorem toNat_sub_lt_of_isDigit {c : Char} (h : c.isDigit = true) :
    c.toNat - 48 < 10 := by
  simp [Char.isDigit] at h
  obtain ⟨h1, h2⟩ := h
  have a2 : c.val ≤ ('9' : Char).val := h2
  have b2 : c.val.toNat ≤ 57 := by exact_mod_cast a2
  unfold Char.toNat
  omega

/-- A digit list of length `k` has value below `10 ^ k`
(accumulator form). -/
theorem digitsToNatAux_lt {ds : List Char} (hds : ∀ c ∈ ds, c.isDigit = true)
    {acc B : Nat} (hacc : acc < B) :
    digitsToNatAux ds acc < B * 10 ^ ds.length := by
  induction ds generalizing acc B with
  | nil => simpa [digitsToNatAux] using hacc
  | cons c cs ih =>
    have hd : c.toNat - 48 < 10 := toNat_sub_lt_of_isDigit (hds c (by simp))
    have hstep : 10 * acc + (c.toNat - 48) < 10 * B := by omega
    have h2 := ih (fun x hx => hds x (by simp [hx])) hstep
    have hpow : 10 * B * 10 ^ cs.length = B * 10 ^ (c :: cs).length := by
      simp [List.length_cons, Nat.pow_succ]
      ring
    rw [hpow] at h2
    exact h2

/-- A digit list of length `k` has value below `10 ^ k`. -/
theorem digitsToNat_lt {ds : List Char} (hds : ∀ c ∈ ds, c.isDigit = true) :
    digitsToNat ds < 10 ^ ds.length := by
  have := @digitsToNatAux_lt ds hds 0 1 (by omega)
  simpa [digitsToNat] using this

/-- The decimal printer emits at most `k` digits for a value below
`10 ^ k` (accumulator form). -/
theorem natReprAux_length_le {fuel n k : Nat} {acc : List Char}
    (hk : 1 ≤ k) (hn : n < 10 ^ k) (hfuel : k ≤ fuel) :
    (natReprAux fuel n acc).length ≤ k + acc.length := by
  induction fuel generalizing n k acc with
  | zero => omega
  | succ fuel ih =>
    unfold natReprAux
    by_cases h10 : n < 10
    · simp [h10]
      omega
    · simp [h10]
      have hk2 : 2 ≤ k := by
        by_contra hlt
        have hk1 : k = 1 := by omega
        subst hk1
        simp at hn
        omega
      have hdiv : n / 10 < 10 ^ (k - 1) := by
        have hmul : 10 ^ (k - 1) * 10 = 10 ^ k := by
          have hsub : k - 1 + 1 = k := by omega
          conv_rhs => rw [← hsub]
          rw [Nat.pow_succ]
        exact Nat.div_lt_of_lt_mul (by omega)
      have := @ih (n / 10) (k - 1) (digitChar n :: acc)
        (by omega) hdiv (by omega)
      simp at this ⊢
      omega

/-- `n < 10 ^ n` for every `n`. -/
theorem lt_ten_pow_self (n : Nat) : n < 10 ^ n :=
  Nat.lt_pow_self (by omega) n

/-- `natReprL n` has at most `k` characters when `n < 10 ^ k`. -/
theorem natReprL_length_le {n k : Nat} (hk : 1 ≤ k) (hn : n < 10 ^ k) :
    (natReprL n).length ≤ k := by
  set k0 := min k (n + 1) with hk0
  have hk01 : 1 ≤ k0 := by omega
  have hn0 : n < 10 ^ k0 := by
    rcases Nat.le_total k (n + 1) with hle | hle
    · have heq : k0 = k := by omega
      rw [heq]; exact hn
    · have hke : k0 = n + 1 := by omega
      rw [hke]
      calc n < 10 ^ n := lt_ten_pow_self n
      _ ≤ 10 ^ (n + 1) := Nat.pow_le_pow_right (by omega) (by omega)
  have := @natReprAux_length_le (n + 1) n k0 [] hk01 hn0 (by omega)
  have hfin : (natReprL n).length ≤ k0 := by simpa [natReprL] using this
  omega

/-- A successful `atoiCore` run means a non-empty all-digit input and
pins down the value. -/
theorem atoiCore_some {neg : Bool} {ds : List Char} {v : Int}
    (h : atoiCore neg ds = some v) :
    (∀ c ∈ ds, c.isDigit = true) ∧ 1 ≤ ds.length ∧ atoiVal neg ds = v := by
  unfold atoiCore at h
  split at h
  · exact absurd h (by simp)
  · split at h
    · exact absurd h (by simp)
    next hbad hrange =>
      have hv : atoiVal neg ds = v := Option.some.inj h
      simp only [Bool.or_eq_true, not_or, Bool.not_eq_true, Bool.not_eq_false] at hbad
      obtain ⟨hne, hdig⟩ := hbad
      have hdig2 : ds.all Char.isDigit = true := by simpa using hdig
      refine ⟨fun c hc => List.all_eq_true.mp hdig2 c hc, ?_, hv⟩
      cases ds with
      | nil => simp at hne
      | cons a as => simp

/-- The decimal printed by `intReprL` for a value parsed by `atoiCore`
is not longer than the digit text plus a sign character. -/
theorem intReprL_length_le_of_atoiCore {neg : Bool} {ds : List Char} {v : Int}
    (h : atoiCore neg ds = some v) :
    (intReprL v).length ≤ ds.length + 1 := by
  obtain ⟨hds, hlen, hv⟩ := atoiCore_some h
  have hlt := digitsToNat_lt hds
  unfold atoiVal at hv
  cases neg with
  | false =>
    simp at hv
    have hnonneg : ¬ (v < 0) := by omega
    unfold intReprL
    simp only [hnonneg, if_false]
    have hto : v.toNat = digitsToNat ds := by omega
    rw [hto]
    have := natReprL_length_le hlen hlt
    omega
  | true =>
    simp at hv
    unfold intReprL
    by_cases hvneg : v < 0
    · simp only [hvneg, if_true]
      have habs : v.natAbs = digitsToNat ds := by omega
      rw [List.length_cons, habs]
      have := natReprL_length_le hlen hlt
      omega
    · simp only [hvneg, if_false]
      have hto : v.toNat = 0 := by omega
      rw [hto]
      have := @natReprL_length_le 0 1 (by omega) (by omega)
      omega

/-- The decimal printed by `intReprL` for a value parsed by `atoiL` is
never longer than the parsed text. -/
theorem intReprL_length_le_of_atoiL {l : List Char} {v : Int}
    (h : atoiL l = some v) : (intReprL v).length ≤ l.length := by
  unfold atoiL at h
  match l, h with
  | c :: cs, h =>
    by_cases hneg : c = '-'
    · simp only [hneg, if_true] at h
      have := intReprL_length_le_of_atoiCore h
      simpa using this
    · by_cases hplus : c = '+'
      · simp only [hneg, hplus, if_false, if_true] at h
        have := intReprL_length_le_of_atoiCore h
        simpa using this
      · simp only [hneg, hplus, if_false] at h
        obtain ⟨hds, hlen, hv⟩ := atoiCore_some h
        have hlt := digitsToNat_lt hds
        unfold atoiVal at hv
        simp at hv
        have hnonneg : ¬ (v < 0) := by omega
        unfold intReprL
        simp only [hnonneg, if_false]
        have hto : v.toNat = digitsToNat (c :: cs) := by omega
        rw [hto]
        exact natReprL_length_le hlen hlt

/-! ### Lemmas about the `transformBuildTagSyntax` loop -/

/-- The halting condition of the rewrite loop: the next iteration would
return the string unchanged (no marker, or no `]` after it, or no `}}`
after that). -/
def tbtsHalts (r : List Char) : Bool :=
  match firstIdx buildTagMarker r with
  | none => true
  | some start =>
    match firstIdx [']'] (r.drop (start + 14)) with
    | none => true
    | some be =>
      match firstIdx ['}', '}'] (r.drop (start + 14 + be + 1)) with
      | none => true
      | some _ => false

/-- On a halting string, one round of the loop changes nothing. -/
theorem tbtsLoop_eq_of_halts {r : List Char} (h : tbtsHalts r = true) (fuel : Nat) :
    tbtsLoop (fuel + 1) r = r := by
  unfold tbtsHalts at h
  unfold tbtsLoop
  cases h1 : firstIdx buildTagMarker r with
  | none => rfl
  | some start =>
    rw [h1] at h
    simp only at h ⊢
    cases h2 : firstIdx [']'] (r.drop (start + 14)) with
    | none => simp [h2]
    | some be =>
      rw [h2] at h
      simp only at h
      cases h3 : firstIdx ['}', '}'] (r.drop (start + 14 + be + 1)) with
      | none => simp [h2, h3]
      | some ce =>
        rw [h3] at h
        simp at h

/-- The prefix-dropping step of the loop strictly shortens the
string. -/
theorem tbts_drop_lt {r : List Char} {start be ce : Nat}
    (h1 : firstIdx buildTagMarker r = some start) :
    (r.drop (start + 14 + be + 1 + ce + 2)).length < r.length := by
  have hfit := firstIdx_add_length_le h1
  have h14 : buildTagMarker.length = 14 := by decide
  rw [h14] at hfit
  simp [List.length_drop]
  omega

/-- The replacement step of the loop strictly shortens the string. -/
theorem tbts_replace_lt {r : List Char} {start be ce : Nat} {index : Int}
    (h1 : firstIdx buildTagMarker r = some start)
    (h2 : firstIdx [']'] (r.drop (start + 14)) = some be)
    (h3 : firstIdx ['}', '}'] (r.drop (start + 14 + be + 1)) = some ce)
    (h4 : atoiL ((r.drop (start + 14)).take be) = some index) :
    (r.take start ++ ("\x7b\x7b tag ".data ++ intReprL index ++ " \x7d\x7d".data) ++
      r.drop (start + 14 + be + 1 + ce + 2)).length < r.length := by
  have hfit := firstIdx_add_length_le h1
  have h14 : buildTagMarker.length = 14 := by decide
  rw [h14] at hfit
  have hbe := firstIdx_add_length_le h2
  simp [List.length_drop] at hbe
  have hce := firstIdx_add_length_le h3
  simp [List.length_drop] at hce
  have hrepr := intReprL_length_le_of_atoiL h4
  have htake : ((r.drop (start + 14)).take be).length = be := by
    simp [List.length_take, List.length_drop]
    omega
  rw [htake] at hrepr
  simp [List.length_append, List.length_take, List.length_drop]
  omega

/-- Whatever string the loop returns (with sufficient fuel) satisfies
the halting condition. -/
theorem tbtsLoop_halts {fuel : Nat} {r : List Char} (h : r.length < fuel) :
    tbtsHalts (tbtsLoop fuel r) = true := by
  induction fuel generalizing r with
  | zero => omega
  | succ fuel ih =>
    unfold tbtsLoop
    cases h1 : firstIdx buildTagMarker r with
    | none => simp [tbtsHalts, h1]
    | some start =>
      simp only
      cases h2 : firstIdx [']'] (r.drop (start + 14)) with
      | none => simp [tbtsHalts, h1, h2]
      | some be =>
        simp only
        cases h3 : firstIdx ['}', '}'] (r.drop (start + 14 + be + 1)) with
        | none => simp [tbtsHalts, h1, h2, h3]
        | some ce =>
          simp only
          cases h4 : atoiL ((r.drop (start + 14)).take be) with
          | none =>
            simp only
            have hlt := @tbts_drop_lt r start be ce h1
            exact ih (by omega)
          | some index =>
            simp only
            have hlt := tbts_replace_lt h1 h2 h3 h4
            refine ih ?_
            rw [show (['{', '{', ' ', 't', 'a', 'g', ' '] : List Char) = "\x7b\x7b tag ".data
              from rfl, show ([' ', '}', '}'] : List Char) = " \x7d\x7d".data from rfl]
            omega

/-! ### Lemmas about the manifest-parsing loop -/

/-- With no decode error among the non-blank segments, the loop
succeeds and returns exactly the kept documents. -/
theorem pmbLoop_ok {decode : String → UnmarshalMapResult} (segs : List String) (k : Nat)
    (hok : ∀ j (hj : j < segs.length),
      goTrimSpace segs[j] = "" ∨ (decode (goTrimSpace segs[j])).notErr) :
    pmbLoop decode k segs = .ok (keptDocs decode segs) := by
  induction segs generalizing k with
  | nil => rfl
  | cons d rest ih =>
    have htail : ∀ j (hj : j < rest.length),
        goTrimSpace rest[j] = "" ∨ (decode (goTrimSpace rest[j])).notErr := by
      intro j hj
      have := hok (j + 1) (by simpa using hj)
      simpa using this
    unfold pmbLoop keptDocs
    by_cases hb : goTrimSpace d = ""
    · simp only [hb, if_true, if_pos rfl]
      exact ih (k + 1) htail
    · simp only [hb, if_false]
      cases hdec : decode (goTrimSpace d) with
      | err m =>
        have hd := hok 0 (by simp)
        simp only [List.getElem_cons_zero] at hd
        rw [hdec] at hd
        simp [hb, UnmarshalMapResult.notErr] at hd
      | null =>
        simp only
        exact ih (k + 1) htail
      | map m =>
        simp only
        rw [ih (k + 1) htail]
        rfl

/-- The loop reports the first failing segment's index (offset by the
starting index `k`). -/
theorem pmbLoop_error {decode : String → UnmarshalMapResult} {msg : String}
    (segs : List String) (k i : Nat) (hi : i < segs.length)
    (hnb : goTrimSpace segs[i] ≠ "")
    (herr : decode (goTrimSpace segs[i]) = .err msg)
    (hok : ∀ j (hj : j < segs.length), j < i →
      goTrimSpace segs[j] = "" ∨ (decode (goTrimSpace segs[j])).notErr) :
    pmbLoop decode k segs =
      .error ("failed to parse document " ++ natRepr (k + i) ++ ": " ++ msg) := by
  induction segs generalizing k i with
  | nil => simp at hi
  | cons d rest ih =>
    cases i with
    | zero =>
      simp at hnb herr
      unfold pmbLoop
      simp [hnb, herr]
    | succ j =>
      have htail := fun (j' : Nat) (hj' : j' < rest.length) (hlt : j' < j) =>
        (by simpa using hok (j' + 1) (by simpa using hj') (by omega) :
          goTrimSpace rest[j'] = "" ∨ (decode (goTrimSpace rest[j'])).notErr)
      have hrec := ih (k + 1) j (by simpa using hi) (by simpa using hnb)
        (by simpa using herr) htail
      have hidx : k + 1 + j = k + (j + 1) := by omega
      rw [hidx] at hrec
      unfold pmbLoop
      by_cases hb : goTrimSpace d = ""
      · simp only [hb, if_pos rfl]
        exact hrec
      · simp only [hb, if_false]
        have hd := hok 0 (by simp) (by omega)
        rcases hd with hblank | hne
        · simp at hblank
          exact absurd hblank hb
        · simp only [List.getElem_cons_zero] at hne
          cases hdec : decode (goTrimSpace d) with
          | err m =>
            rw [hdec] at hne
            simp [UnmarshalMapResult.notErr] at hne
          | null =>
            simp only
            exact hrec
          | map m =>
            simp only
            rw [hrec]
            rfl

/-- Unfolding equation of `keptDocs` on a cons cell. -/
theorem keptDocs_cons (decode : String → UnmarshalMapResult) (d : String)
    (rest : List String) :
    keptDocs decode (d :: rest) =
      if goTrimSpace d = "" then keptDocs decode rest
      else
        match decode (goTrimSpace d) with
        | .map m => m :: keptDocs decode rest
        | _ => keptDocs decode rest := rfl

/-- `keptDocs` distributes over list append. -/
theorem keptDocs_append (decode : String → UnmarshalMapResult) (l1 l2 : List String) :
    keptDocs decode (l1 ++ l2) = keptDocs decode l1 ++ keptDocs decode l2 := by
  induction l1 with
  | nil => rfl
  | cons d rest ih =>
    rw [List.cons_append, keptDocs_cons, keptDocs_cons]
    by_cases hb : goTrimSpace d = ""
    · simp only [hb, if_pos rfl]
      exact ih
    · simp only [hb, if_false]
      cases hdec : decode (goTrimSpace d) with
      | err m => simpa using ih
      | null => simpa using ih
      | map m => simp only [List.cons_append]; rw [ih]

/-- Every kept document comes from a non-blank segment that decodes to
a mapping. -/
theorem keptDocs_mem {decode : String → UnmarshalMapResult} {segs : List String}
    {m : DocMap} (h : m ∈ keptDocs decode segs) :
    ∃ s ∈ segs, goTrimSpace s ≠ "" ∧ decode (goTrimSpace s) = .map m := by
  induction segs with
  | nil => simp [keptDocs] at h
  | cons d rest ih =>
    unfold keptDocs at h
    by_cases hb : goTrimSpace d = ""
    · simp only [hb, if_pos rfl] at h
      obtain ⟨s, hs, hss⟩ := ih h
      exact ⟨s, by simp [hs], hss⟩
    · simp only [hb, if_false] at h
      cases hdec : decode (goTrimSpace d) with
      | err msg =>
        rw [hdec] at h
        simp only at h
        obtain ⟨s, hs, hss⟩ := ih h
        exact ⟨s, by simp [hs], hss⟩
      | null =>
        rw [hdec] at h
        simp only at h
        obtain ⟨s, hs, hss⟩ := ih h
        exact ⟨s, by simp [hs], hss⟩
      | map m' =>
        rw [hdec] at h
        simp only at h
        rcases List.mem_cons.mp h with heq | htl
        · exact ⟨d, by simp, hb, by rw [hdec, heq]⟩
        · obtain ⟨s, hs, hss⟩ := ih htl
          exact ⟨s, by simp [hs], hss⟩

/-! ## Claim fixtures -/

/-- A one-container Deployment document, as decoded from a typical
`k8s/deploy.yaml`. -/
def demoDeployment : DocMap :=
  [("kind", .str "Deployment"),
   ("spec", .map [("template", .map [("spec", .map
     [("containers", .seq [.map [("name", .str "c"), ("image", .str "old")]])])])])]

/-- What `setValueAtPath demoDeployment
"spec.template.spec.containers[0].image" v` actually produces: the
containers sequence (and its `image`) is untouched and a literal
`containers[0]` mapping key is synthesised next to it. -/
def demoDeploymentMiswritten (v : String) : DocMap :=
  [("kind", .str "Deployment"),
   ("spec", .map [("template", .map [("spec", .map
     [("containers", .seq [.map [("name", .str "c"), ("image", .str "old")]]),
      ("containers[0]", .map [("image", .str v)])])])])]

/-- The document the override was supposed to produce: the `image` of
the first container replaced. -/
def demoDeploymentIntended (v : String) : DocMap :=
  [("kind", .str "Deployment"),
   ("spec", .map [("template", .map [("spec", .map
     [("containers", .seq [.map [("name", .str "c"), ("image", .str v)]])])])])]

/-- The end-to-end configuration of the spec's testable property: one
build `api`, one deploy `d1` overriding the first container's image. -/
def endToEndConfig : NimbulConfig :=
  { Version := "1"
    Build := [{ Name := "api", Dockerfile := "Dockerfile", Context := ".",
                Tags := ["img:{{ .COMMIT_SHORT }}"] }]
    Deploy := [{ Name := "d1", BuildID := "api",
                 Manifests := [{ Path := "k8s/deploy.yaml",
                                 Overrides := [{ Path := "spec.template.spec.containers[0].image",
                                                 Match := { Kind := "Deployment", Name := "" },
                                                 Value := "{{ .BUILD_TAG[0] }}" }] }] }] }

/-- The rendered form of `endToEndConfig` under commit SHA
`abc123def456789`. -/
def endToEndRendered : NimbulConfig :=
  { Version := "1"
    Build := [{ Name := "api", Dockerfile := "Dockerfile", Context := ".",
                Tags := ["img:abc123def456"] }]
    Deploy := [{ Name := "d1", BuildID := "api",
                 Manifests := [{ Path := "k8s/deploy.yaml",
                                 Overrides := [{ Path := "spec.template.spec.containers[0].image",
                                                 Match := { Kind := "Deployment", Name := "" },
                                                 Value := "img:abc123def456" }] }] }] }

/-- A well-formed occurrence of the spec's `{{ .BUILD_TAG[n] }}`
syntax (`n` a non-negative decimal integer literal) starting at the
head of the list. -/
def startsBuildTagOccurrence (l : List Char) : Bool :=
  buildTagMarker.isPrefixOf l &&
  (let rest := l.drop 14
   let ds := rest.takeWhile Char.isDigit
   !ds.isEmpty && "] \x7d\x7d".data.isPrefixOf (rest.drop ds.length))

/-- Whether the spec's `{{ .BUILD_TAG[n] }}` syntax (`n` a
non-negative decimal integer literal) occurs anywhere in the list. -/
def hasBuildTagSyntax : List Char → Bool
  | [] => false
  | c :: rest => startsBuildTagOccurrence (c :: rest) || hasBuildTagSyntax rest

/-! ## Claim theorems -/

/-- C1 (code bug): `parsePath` does not split
`spec.template.spec.containers[0].image` into
`spec, template, spec, containers, [0], image` as its own doc comment
and the spec state; the greedy `[^.]+` alternative keeps
`containers[0]` as a single segment, so applying an override at that
path does not index into the containers sequence: it synthesises a
literal `containers[0]` mapping key and writes the value there,
leaving the first container's `image` untouched. -/
theorem parsePath_keeps_bracket_attached :
    parsePath "spec.template.spec.containers[0].image" =
      ["spec", "template", "spec", "containers[0]", "image"] ∧
    parsePath "spec.template.spec.containers[0].image" ≠
      ["spec", "template", "spec", "containers", "[0]", "image"] ∧
    setValueAtPath demoDeployment "spec.template.spec.containers[0].image" (.str "new") =
      (demoDeploymentMiswritten "new", none) ∧
    demoDeploymentMiswritten "new" ≠ demoDeploymentIntended "new" := by
  refine ⟨by decide, by decide, rfl, ?_⟩
  simp [demoDeploymentMiswritten, demoDeploymentIntended]

/-- C2 (code bug): rendering the end-to-end config with commit SHA
`abc123def456789` does produce the build tag `img:abc123def456` and the
override value `img:abc123def456`, but applying the override to a
Deployment document does not write the value into the image field of
the first container: because of the `parsePath` behaviour the value
lands under a literal `containers[0]` key and the container's `image`
stays `old`. -/
theorem endToEnd_render_ok_but_write_misplaced :
    renderConfig endToEndConfig
      (newTemplateContext "abc123def456789" "main" "owner/repo" "1700000000") =
      .ok endToEndRendered ∧
    endToEndRendered.Build.map BuildConfig.Tags = [["img:abc123def456"]] ∧
    applyOverrides [demoDeployment]
      [{ Path := "spec.template.spec.containers[0].image",
         Match := { Kind := "Deployment", Name := "" },
         Value := "img:abc123def456" }] =
      ([demoDeploymentMiswritten "img:abc123def456"], none) ∧
    [demoDeploymentMiswritten "img:abc123def456"] ≠
      [demoDeploymentIntended "img:abc123def456"] := by
  refine ⟨rfl, rfl, rfl, ?_⟩
  simp [demoDeploymentMiswritten, demoDeploymentIntended]

/-- C5 counterexample: `a{{ .BUILD_TAG[x] }}b` contains no
occurrence of the `{{ .BUILD_TAG[n] }}` syntax with an
integer index, yet the rewrite is not the identity on it: the
unparsable index makes the loop drop everything up to the closing
braces, returning `b`. -/
theorem transform_drops_prefix_on_bad_index :
    hasBuildTagSyntax "a{{ .BUILD_TAG[x] }}b".data = false ∧
    transformBuildTagSyntax "a{{ .BUILD_TAG[x] }}b" = "b" ∧
    ("b" : String) ≠ "a{{ .BUILD_TAG[x] }}b" := by
  refine ⟨by decide, rfl, by decide⟩

/-- C5 (amended): the rewrite handles any number of well-formed
`{{ .BUILD_TAG[n] }}` occurrences interleaved with literal
text, and every template that does not contain the literal marker
`{{ .BUILD_TAG[` is returned byte-identical (a template
containing the marker in malformed position may be altered, as the
counterexample shows). -/
theorem transform_id_without_marker_and_multi_occurrence :
    (∀ t : String, containsSub t.data buildTagMarker = false →
      transformBuildTagSyntax t = t) ∧
    transformBuildTagSyntax "x{{ .BUILD_TAG[0] }}-{{ .BUILD_TAG[12] }}y{{ .BUILD_TAG[3] }}z" =
      "x{{ tag 0 }}-{{ tag 12 }}y{{ tag 3 }}z" := by
  constructor
  · intro t ht
    have h1 : firstIdx buildTagMarker t.data = none := firstIdx_eq_none_of_not_contains ht
    unfold transformBuildTagSyntax
    have h2 : tbtsLoop (t.data.length + 1) t.data = t.data := by
      unfold tbtsLoop
      rw [h1]
    rw [h2]
  · rfl

/-- C5 amended witness: a template without the marker is returned
unchanged. -/
theorem transform_id_without_marker_witness :
    transformBuildTagSyntax "plain-image:v1" = "plain-image:v1" :=
  transform_id_without_marker_and_multi_occurrence.1 "plain-image:v1" (by decide)

/-- C6: the BUILD_TAG rewrite is idempotent — applying it twice yields
the same result as applying it once, for every template string. -/
theorem transform_idempotent (t : String) :
    transformBuildTagSyntax (transformBuildTagSyntax t) = transformBuildTagSyntax t := by
  unfold transformBuildTagSyntax
  have hh : tbtsHalts (tbtsLoop (t.data.length + 1) t.data) = true :=
    tbtsLoop_halts (by omega)
  show (⟨tbtsLoop ((tbtsLoop (t.data.length + 1) t.data).length + 1)
      (tbtsLoop (t.data.length + 1) t.data)⟩ : String) =
    ⟨tbtsLoop (t.data.length + 1) t.data⟩
  rw [tbtsLoop_eq_of_halts hh]

/-- A non-empty `Match.Kind` passes `validateOverride` (with path and
value present) exactly when it case-folds to one of the `validKinds`. -/
theorem validateOverride_ok_iff {o : OverrideConfig} (hp : o.Path ≠ "") (hv : o.Value ≠ "")
    (hk : o.Match.Kind ≠ "") :
    exceptOk (validateOverride o) = true ↔
      ∃ k ∈ validKinds, eqFold o.Match.Kind k = true := by
  unfold validateOverride
  cases hkv : validKinds.any (fun validKind => eqFold o.Match.Kind validKind) with
  | false =>
    simp [hp, hv, hk, hkv, exceptOk, pure, Except.pure, bind, Except.bind]
    intro k hkmem
    have := List.any_eq_false.mp hkv k hkmem
    simp at this
    exact this
  | true =>
    simp [hp, hv, hk, hkv, exceptOk, pure, Except.pure, bind, Except.bind]
    obtain ⟨k, hkmem, hke⟩ := List.any_eq_true.mp hkv
    exact ⟨k, hkmem, hke⟩

/-- C3 (amended): `validateOverride` accepts a non-empty `Match.Kind`
exactly when it equals, case-insensitively, one of a fixed closed set
of TEN recognised Kubernetes kind names — not fourteen. -/
theorem validateOverride_ten_kinds :
    validKinds.length = 10 ∧
    ∀ o : OverrideConfig, o.Path ≠ "" → o.Value ≠ "" → o.Match.Kind ≠ "" →
      (exceptOk (validateOverride o) = true ↔
        ∃ k ∈ validKinds, eqFold o.Match.Kind k = true) :=
  ⟨rfl, fun _ hp hv hk => validateOverride_ok_iff hp hv hk⟩

/-- C3 amended witness: the lower-cased spelling `deployment` is
accepted. -/
theorem validateOverride_ten_kinds_witness :
    exceptOk (validateOverride
      { Path := "p", Match := { Kind := "deployment", Name := "" }, Value := "v" }) = true :=
  (validateOverride_ten_kinds.2 _ (by decide) (by decide) (by decide)).mpr
    ⟨"Deployment", by decide, by decide⟩

/-- C3 counterexample: there is NO closed set of fourteen
pairwise-fold-distinct kind names whose case-insensitive membership
characterises acceptance: the accepted kinds form exactly ten fold
classes, so such a set can have at most eleven elements. -/
theorem no_fourteen_kind_characterisation :
    ¬ ∃ S : Finset String, S.card = 14 ∧
      (∀ s ∈ S, ∀ t ∈ S, eqFold s t = true → s = t) ∧
      (∀ kind : String, kind ≠ "" →
        (exceptOk (validateOverride
          { Path := "p", Match := { Kind := kind, Name := "" }, Value := "v" }) = true ↔
        ∃ s ∈ S, eqFold kind s = true)) := by
  rintro ⟨S, hcard, hdist, hiff⟩
  have hmem : ∀ s ∈ S.erase "", lowerL s.data ∈ validKinds.map (fun k => lowerL k.data) := by
    intro s hs
    have hsS : s ∈ S := Finset.mem_of_mem_erase hs
    have hne : s ≠ "" := Finset.ne_of_mem_erase hs
    have hacc : exceptOk (validateOverride
        { Path := "p", Match := { Kind := s, Name := "" }, Value := "v" }) = true :=
      (hiff s hne).mpr ⟨s, hsS, by simp [eqFold]⟩
    obtain ⟨k, hkmem, hek⟩ := (validateOverride_ok_iff (by simp) (by simp) hne).mp hacc
    have hlow : lowerL s.data = lowerL k.data := by simpa [eqFold] using hek
    rw [hlow]
    exact List.mem_map.mpr ⟨k, hkmem, rfl⟩
  have hinj : Set.InjOn (fun s : String => lowerL s.data) (S.erase "") := by
    intro a ha b hb hf
    exact hdist a (Finset.mem_of_mem_erase ha) b (Finset.mem_of_mem_erase hb)
      (by simpa [eqFold] using hf)
  have hcardimg : ((S.erase "").image (fun s : String => lowerL s.data)).card =
      (S.erase "").card :=
    Finset.card_image_of_injOn hinj
  have hsub : ((S.erase "").image (fun s : String => lowerL s.data)) ⊆
      (validKinds.map (fun k => lowerL k.data)).toFinset := by
    intro x hx
    obtain ⟨s, hs, rfl⟩ := Finset.mem_image.mp hx
    exact List.mem_toFinset.mpr (hmem s hs)
  have hle : ((S.erase "").image (fun s : String => lowerL s.data)).card ≤
      ((validKinds.map (fun k => lowerL k.data)).toFinset).card :=
    Finset.card_le_card hsub
  have hten : ((validKinds.map (fun k => lowerL k.data)).toFinset).card = 10 := by decide
  have herase : 13 ≤ (S.erase "").card := by
    by_cases hmem0 : "" ∈ S
    · rw [Finset.card_erase_of_mem hmem0, hcard]
    · rw [Finset.erase_eq_of_not_mem hmem0, hcard]
      omega
  omega

/-- A document whose `kind` field is not the string `mc.Kind` never
matches. -/
theorem matches_false_of_kind_ne {doc : DocMap} {mc : MatchConfig}
    (h : doc.lookup "kind" ≠ some (DocVal.str mc.Kind)) :
    matchesResource doc mc = false := by
  unfold matchesResource
  cases hl : doc.lookup "kind" with
  | none => rfl
  | some v =>
    cases v with
    | str k =>
      rw [hl] at h
      have hne : k ≠ mc.Kind := by
        intro he
        exact h (by rw [he])
      simp [hne]
    | null => rfl
    | bool b => rfl
    | num n => rfl
    | seq xs => rfl
    | map m => rfl

/-- A non-matching override leaves the document as it is. -/
theorem applyOverridesDoc_skip {doc : DocMap} {ov : OverrideConfig}
    (h : matchesResource doc ov.Match = false) :
    applyOverridesDoc doc [ov] = (doc, none) := by
  unfold applyOverridesDoc
  simp [h]
  rfl

/-- C4 (amended): `ApplyOverrides` leaves every document whose `kind`
field differs from the override's `Match.Kind` unchanged; an override
whose `Match.Kind` is the empty string matches a document only when
that document's `kind` field is present and literally the empty
string (it is not an always-false predicate). -/
theorem applyOverrides_frame :
    (∀ (docs : List DocMap) (ov : OverrideConfig) (i : Nat) (hi : i < docs.length),
      docs[i].lookup "kind" ≠ some (DocVal.str ov.Match.Kind) →
      (applyOverrides docs [ov]).1[i]? = some docs[i]) ∧
    (∀ (doc : DocMap) (mc : MatchConfig), mc.Kind = "" → matchesResource doc mc = true →
      doc.lookup "kind" = some (DocVal.str "")) := by
  constructor
  · intro docs ov
    induction docs with
    | nil => intro i hi; simp at hi
    | cons d ds ih =>
      intro i hi hk
      cases i with
      | zero =>
        have hm : matchesResource d ov.Match = false :=
          matches_false_of_kind_ne (by simpa using hk)
        unfold applyOverrides
        rw [applyOverridesDoc_skip hm]
        simp
      | succ j =>
        unfold applyOverrides
        cases hres : applyOverridesDoc d [ov] with
        | mk d' err =>
          cases err with
          | none =>
            simp only
            have := ih j (by simpa using hi) (by simpa using hk)
            simpa using this
          | some e =>
            simp only [List.getElem?_cons_succ]
            have hj : j < ds.length := by simpa using hi
            simp [List.getElem?_eq_getElem hj]
  · intro doc mc hke hm
    unfold matchesResource at hm
    cases hl : doc.lookup "kind" with
    | none => rw [hl] at hm; simp at hm
    | some v =>
      rw [hl] at hm
      cases v with
      | str k =>
        by_cases hne : k = mc.Kind
        · rw [hne, hke]
        · simp [hne] at hm
      | null => simp at hm
      | bool b => simp at hm
      | num n => simp at hm
      | seq xs => simp at hm
      | map m => simp at hm

/-- C4 amended witness: a Service document is untouched by a
Deployment-matching override. -/
theorem applyOverrides_frame_witness :
    (applyOverrides [[("kind", DocVal.str "Service")]]
      [{ Path := "spec.x", Match := { Kind := "Deployment", Name := "" }, Value := "v" }]).1[0]? =
      some [("kind", DocVal.str "Service")] :=
  applyOverrides_frame.1 [[("kind", DocVal.str "Service")]]
    { Path := "spec.x", Match := { Kind := "Deployment", Name := "" }, Value := "v" } 0
    (by decide) (by simp)

/-- C4 counterexample: an override whose `Match.Kind` is the empty
string is not an always-false predicate — it matches (and mutates) a
document whose `kind` field is the empty string. -/
theorem empty_kind_override_mutates :
    matchesResource [("kind", DocVal.str "")] { Kind := "", Name := "" } = true ∧
    (applyOverrides [[("kind", DocVal.str "")]]
      [{ Path := "image", Match := { Kind := "", Name := "" }, Value := "v" }]).1 =
      [[("kind", DocVal.str ""), ("image", DocVal.str "v")]] ∧
    [[("kind", DocVal.str ""), ("image", DocVal.str "v")]] ≠
      [([("kind", DocVal.str "")] : DocMap)] := by
  refine ⟨rfl, rfl, by simp⟩

/-- C8: `ParseManifestBytes` splits on `---`, trims every segment,
skips blank segments and decodes the remaining segments independently
(success case: the kept documents in order); the first segment whose
decode fails makes the whole call fail, and the error names that
segment's 0-based index in the split list. -/
theorem parseManifestBytes_spec :
    (∀ (decode : String → UnmarshalMapResult) (data : String),
      (∀ j (hj : j < (goSplit data "---").length),
        goTrimSpace (goSplit data "---")[j] = "" ∨
        ((decode (goTrimSpace (goSplit data "---")[j])).notErr)) →
      parseManifestBytes decode data = .ok (keptDocs decode (goSplit data "---"))) ∧
    (∀ (decode : String → UnmarshalMapResult) (data : String) (i : Nat) (msg : String)
      (hi : i < (goSplit data "---").length),
      goTrimSpace (goSplit data "---")[i] ≠ "" →
      decode (goTrimSpace (goSplit data "---")[i]) = .err msg →
      (∀ j (hj : j < (goSplit data "---").length), j < i →
        goTrimSpace (goSplit data "---")[j] = "" ∨
        ((decode (goTrimSpace (goSplit data "---")[j])).notErr)) →
      parseManifestBytes decode data =
        .error ("failed to parse document " ++ natRepr i ++ ": " ++ msg)) := by
  constructor
  · intro decode data hall
    exact pmbLoop_ok (goSplit data "---") 0 hall
  · intro decode data i msg hi hnb herr hbefore
    have := pmbLoop_error (goSplit data "---") 0 i hi hnb herr hbefore
    simpa using this

/-- A concrete decoder for the manifest witnesses: `bad` is a decode
error, `null` is a YAML null document, anything else is a one-entry
mapping. -/
def witnessDecode : String → UnmarshalMapResult := fun s =>
  if s = "bad" then .err "boom"
  else if s = "null" then .null
  else .map [("kind", .str s)]

/-- C8 witness: the second split segment of `ok---bad` fails to decode
and the error names index 1. -/
theorem parseManifestBytes_spec_witness :
    parseManifestBytes witnessDecode "ok---bad" =
      .error "failed to parse document 1: boom" := by
  have h := parseManifestBytes_spec.2 witnessDecode "ok---bad" 1 "boom" (by decide)
    (by decide) rfl ?hok
  · exact h
  case hok =>
    intro j hj hji
    have hj0 : j = 0 := by omega
    subst hj0
    exact Or.inr trivial

/-- C10: `ParseManifestBytes` returns only documents whose top-level
value is a mapping: a non-blank segment that decodes to YAML null
contributes nothing to the result (it is silently dropped, never a
null document); every returned document is the mapping of some
non-blank segment; and a segment whose decode errors (which, under the
`yaml.Unmarshal`-into-map model, is what a sequence or scalar
top-level value produces) fails the whole call. -/
theorem parseManifestBytes_mappings_only :
    (∀ (decode : String → UnmarshalMapResult) (pre suf : List String) (s : String),
      decode (goTrimSpace s) = .null →
      keptDocs decode (pre ++ s :: suf) = keptDocs decode (pre ++ suf)) ∧
    (∀ (decode : String → UnmarshalMapResult) (data : String),
      (∀ j (hj : j < (goSplit data "---").length),
        goTrimSpace (goSplit data "---")[j] = "" ∨
        ((decode (goTrimSpace (goSplit data "---")[j])).notErr)) →
      parseManifestBytes decode data = .ok (keptDocs decode (goSplit data "---")) ∧
      ∀ m ∈ keptDocs decode (goSplit data "---"),
        ∃ s ∈ goSplit data "---",
          goTrimSpace s ≠ "" ∧ decode (goTrimSpace s) = .map m) ∧
    (∀ (decode : String → UnmarshalMapResult) (data : String) (i : Nat) (msg : String)
      (hi : i < (goSplit data "---").length),
      goTrimSpace (goSplit data "---")[i] ≠ "" →
      decode (goTrimSpace (goSplit data "---")[i]) = .err msg →
      (∀ j (hj : j < (goSplit data "---").length), j < i →
        goTrimSpace (goSplit data "---")[j] = "" ∨
        ((decode (goTrimSpace (goSplit data "---")[j])).notErr)) →
      ∃ e, parseManifestBytes decode data = .error e) := by
  refine ⟨?_, ?_, ?_⟩
  · intro decode pre suf s hnull
    rw [keptDocs_append, keptDocs_append, keptDocs_cons, hnull]
    simp
  · intro decode data hall
    exact ⟨pmbLoop_ok (goSplit data "---") 0 hall, fun m hm => keptDocs_mem hm⟩
  · intro decode data i msg hi hnb herr hbefore
    exact ⟨_, by simpa using pmbLoop_error (goSplit data "---") 0 i hi hnb herr hbefore⟩

/-- C10 witness: a null-decoding segment in the middle of the split
list is dropped, and the call returns only the mappings. -/
theorem parseManifestBytes_mappings_only_witness :
    keptDocs witnessDecode (["ok"] ++ "null" :: ["ok2"]) =
      keptDocs witnessDecode (["ok"] ++ ["ok2"]) ∧
    parseManifestBytes witnessDecode "ok---null---ok2" =
      .ok [[("kind", DocVal.str "ok")], [("kind", DocVal.str "ok2")]] := by
  constructor
  · exact parseManifestBytes_mappings_only.1 witnessDecode ["ok"] ["ok2"] "null" rfl
  · have h := (parseManifestBytes_mappings_only.2.1 witnessDecode "ok---null---ok2" ?hok).1
    · exact h
    case hok =>
      intro j hj
      have hj3 : j < 3 := by
        have : (goSplit "ok---null---ok2" "---").length = 3 := by decide
        omega
      interval_cases j
      · exact Or.inr trivial
      · exact Or.inr trivial
      · exact Or.inr trivial

/-- C9: `normalizeRefForTag` strips the `refs/heads/` and `refs/tags/`
prefixes; a 40-hex-character ref is shortened to its first 12
characters; any other non-empty ref passes through unchanged; an empty
ref falls back to the first 12 characters of the commit SHA.  In
particular `normalizeRefForTag "refs/heads/main" sha = "main"` and an
empty ref with a 40-hex commit SHA yields its first 12 characters. -/
theorem normalizeRefForTag_spec :
    (∀ ref sha : String, goHasPrefixStr ref "refs/heads/" = true →
      normalizeRefForTag ref sha = ⟨ref.data.drop 11⟩) ∧
    (∀ ref sha : String, goHasPrefixStr ref "refs/tags/" = true →
      normalizeRefForTag ref sha = ⟨ref.data.drop 10⟩) ∧
    (∀ ref sha : String, goHasPrefixStr ref "refs/heads/" = false →
      goHasPrefixStr ref "refs/tags/" = false →
      ref.data.length = 40 → isHexString ref.data = true →
      normalizeRefForTag ref sha = ⟨ref.data.take 12⟩) ∧
    (∀ ref sha : String, ref ≠ "" → goHasPrefixStr ref "refs/heads/" = false →
      goHasPrefixStr ref "refs/tags/" = false →
      ¬(ref.data.length = 40 ∧ isHexString ref.data = true) →
      normalizeRefForTag ref sha = ref) ∧
    (∀ sha : String, normalizeRefForTag "" sha = ⟨sha.data.take 12⟩) ∧
    (∀ sha : String, normalizeRefForTag "refs/heads/main" sha = "main") := by
  refine ⟨?_, ?_, ?_, ?_, ?_, ?_⟩
  · intro ref sha hp
    have h0 : ref ≠ "" := by
      intro he
      subst he
      exact absurd hp (by decide)
    simp [normalizeRefForTag, h0, hp]
  · intro ref sha hp
    have h0 : ref ≠ "" := by
      intro he
      subst he
      exact absurd hp (by decide)
    have hh : goHasPrefixStr ref "refs/heads/" = false := by
      cases hb : goHasPrefixStr ref "refs/heads/" with
      | false => rfl
      | true =>
        exfalso
        have p1 := List.isPrefixOf_iff_prefix.mp hb
        have p2 := List.isPrefixOf_iff_prefix.mp hp
        rcases List.prefix_or_prefix_of_prefix p1 p2 with hc | hc
        · exact absurd hc (by decide)
        · exact absurd hc (by decide)
    simp [normalizeRefForTag, h0, hh, hp]
  · intro ref sha hph hpt hlen hhex
    have h0 : ref ≠ "" := by
      intro he
      subst he
      simp at hlen
    simp [normalizeRefForTag, h0, hph, hpt, hlen, hhex]
  · intro ref sha h0 hph hpt hno
    have hb : (ref.data.length == 40 && isHexString ref.data) = false := by
      cases hb : (ref.data.length == 40 && isHexString ref.data) with
      | false => rfl
      | true =>
        exfalso
        simp at hb
        exact hno ⟨hb.1, hb.2⟩
    unfold normalizeRefForTag
    rw [if_neg h0, if_neg (by simp [hph]), if_neg (by simp [hpt]),
      if_neg (fun hcon => Bool.false_ne_true (hb ▸ hcon))]
  · intro sha
    unfold normalizeRefForTag
    rw [if_pos rfl]
    by_cases h : sha.data.length > 12
    · rw [if_pos h]
    · rw [if_neg h]
      have he : sha.data.take 12 = sha.data := List.take_of_length_le (by omega)
      rw [he]
  · intro sha
    rfl

/-- C9 witness: the two concrete examples of the spec. -/
theorem normalizeRefForTag_spec_witness :
    normalizeRefForTag "refs/heads/main" "deadbeef" = "main" ∧
    normalizeRefForTag "" "abc123def456789abc123def456789abc123def4" = "abc123def456" := by
  constructor
  · exact (normalizeRefForTag_spec.1 "refs/heads/main" "deadbeef" (by decide)).trans
      (by decide)
  · exact (normalizeRefForTag_spec.2.2.2.2.1
      "abc123def456789abc123def456789abc123def4").trans (by decide)

end Nimbul
